import Mathlib

set_option maxHeartbeats 1000000
set_option autoImplicit false

/-!
Verification of `audit.py`, an OpenStreetMap audit/clean/export script.
Strings are modelled as `List Char`; Python regular-expression semantics are
translated explicitly (in particular, `$` also matches just before a final
newline, and `\b` requires an adjacent word character).
-/

namespace Audit

/-- ASCII whitespace, as recognised by Python's `str.split()` and regex `\S`. -/
def pyIsSpace (c : Char) : Bool :=
  c == ' ' || c == '\t' || c == '\n' || c == '\r' || c == '\x0b' || c == '\x0c'

/-- Regex word characters `[a-zA-Z0-9_]`, used for `\b` word boundaries. -/
def isWordChar (c : Char) : Bool :=
  ('a' ≤ c && c ≤ 'z') || ('A' ≤ c && c ≤ 'Z') || ('0' ≤ c && c ≤ '9') || c == '_'

/-- Convert a Lean string literal to the `List Char` representation. -/
def strL (s : String) : List Char := s.data

/-- `startsWith p s` is Python's `s.startswith(p)` on the list representation. -/
def startsWith : List Char → List Char → Bool
  | [], _ => true
  | _ :: _, [] => false
  | p :: ps, c :: cs => p == c && startsWith ps cs

/-- Boolean membership of a string in a list of strings. -/
def listMem (x : List Char) : List (List Char) → Bool
  | [] => false
  | y :: rest => if x = y then true else listMem x rest

/-- First-match association-list lookup, mirroring Python `dict.get` on a
literal table. -/
def alookup (x : List Char) : List (List Char × List Char) → Option (List Char)
  | [] => none
  | (k, v) :: rest => if x = k then some v else alookup x rest

/-- The part of `s` strictly before the first occurrence of `pat`
(`s.split(pat, 1)[0]` in Python; the whole of `s` if `pat` does not occur). -/
def takeBefore (s pat : List Char) : List Char :=
  match s with
  | [] => []
  | c :: rest => if startsWith pat (c :: rest) then [] else c :: takeBefore rest pat

/-- Whether `"PA "` occurs anywhere in `s`. -/
def containsPA : List Char → Bool
  | [] => false
  | c :: rest => startsWith (strL "PA ") (c :: rest) || containsPA rest

/-- The last segment of Python's `s.split('PA ')`. Because the separator
`"PA "` cannot overlap itself, Python's left-to-right scan consumes every
occurrence, so the last segment is the suffix after the last occurrence:
if `"PA "` occurs in the tail, recurse there; otherwise the only possible
occurrence is at the head. -/
def splitLastPA : List Char → List Char
  | [] => []
  | c :: rest =>
    if containsPA rest then splitLastPA rest
    else if startsWith (strL "PA ") (c :: rest) then rest.drop 2
    else c :: rest

/-- `update_zip_code` from audit.py:
fix the literal typo `17250`, else truncate at the first hyphen, else return
the last `split('PA ')` segment of a string starting with `"PA "`, else the
input unchanged. -/
def update_zip_code (z : List Char) : List Char :=
  if z = strL "17250" then strL "17520"
  else if z.any (fun c => c == '-') then z.takeWhile (fun c => c ≠ '-')
  else if startsWith (strL "PA ") z then splitLastPA z
  else z

/-- Python's `$`-anchor adjustment applied to a reversed string: a final
newline (now at the head) is ignored. -/
def stripNlRev (r : List Char) : List Char :=
  match r with
  | [] => []
  | c :: t => if c = '\n' then t else c :: t

/-- `$`-anchor adjustment on a forward string: drop a single final newline. -/
def stripFinalNl (s : List Char) : List Char := (stripNlRev s.reverse).reverse

/-- The match of `street_type_re = \b\S+\.?$` in `name`, if any: the maximal
run of non-whitespace characters at the end of the string (a final newline
ignored, per `$`), shortened from the left to its first word character
(per `\b`); no match when that is empty. -/
def street_type_search (name : List Char) : Option (List Char) :=
  let r := stripNlRev name.reverse
  let st := (r.takeWhile (fun c => !pyIsSpace c)).reverse.dropWhile (fun c => !isWordChar c)
  if st.isEmpty then none else some st

/-- `expected_street_type` from audit.py. -/
def expected_street_type : List (List Char) :=
  [strL "Street", strL "Avenue", strL "Boulevard", strL "Drive", strL "Court",
   strL "Place", strL "Square", strL "Lane", strL "Road", strL "Trail",
   strL "Parkway", strL "Commons", strL "Broadway", strL "Circle", strL "Alley",
   strL "Crossing", strL "Highway", strL "Pike", strL "Way"]

/-- The street-suffix abbreviation `mapping` from audit.py. -/
def mapping : List (List Char × List Char) :=
  [(strL "St", strL "Street"),
   (strL "St.", strL "Street"),
   (strL "Ave", strL "Avenue"),
   (strL "AVE", strL "Avenue"),
   (strL "AVENUE", strL "Avenue"),
   (strL "Aveneue", strL "Avenue"),
   (strL "Blvd", strL "Boulevard"),
   (strL "Dr", strL "Drive"),
   (strL "Dr.", strL "Drive"),
   (strL "drive", strL "Drive"),
   (strL "Rd.", strL "Road"),
   (strL "RD", strL "Road"),
   (strL "Rd", strL "Road"),
   (strL "road", strL "Road"),
   (strL "pike", strL "Pike")]

/-- `update_street_name` from audit.py. `m.group()` on a failed regex search
raises `AttributeError`, modelled by `none`. -/
def update_street_name (name : List Char) : Option (List Char) :=
  match street_type_search name with
  | none => none
  | some street_type =>
    if listMem street_type expected_street_type then some name
    else
      match alookup street_type mapping with
      | none => some name
      | some full => some (takeBefore name street_type ++ full)

/-- The last whitespace-delimited token of a string (set off by the claim
wording for C2): drop trailing whitespace, then take the trailing run of
non-whitespace characters. -/
def lastWsTokenSpec (s : List Char) : List Char :=
  ((s.reverse.dropWhile pyIsSpace).takeWhile (fun c => !pyIsSpace c)).reverse

/-- Modelled from the claim C2 wording (not from the code): normalize using
the last whitespace-delimited token as the suffix. -/
def specC2_update (name : List Char) : List Char :=
  let st := lastWsTokenSpec name
  if listMem st expected_street_type then name
  else
    match alookup st mapping with
    | none => name
    | some full => takeBefore name st ++ full

/-- Characters matched by `([a-z]|_)`. -/
def lowerChar (c : Char) : Bool := ('a' ≤ c && c ≤ 'z') || c == '_'

/-- `lower.search(k)` for `lower = ^([a-z]|_)*$`: every character up to an
optional final newline (matched by `$`) is a lowercase letter or underscore. -/
def matchesLower (k : List Char) : Bool := (stripFinalNl k).all lowerChar

/-- Helper for `lower_colon`: skip `([a-z]|_)*`, then require a colon followed
by `([a-z]|_)*`. -/
def lcAux : List Char → Bool
  | [] => false
  | c :: rest => if lowerChar c then lcAux rest else c == ':' && rest.all lowerChar

/-- `lower_colon.search(k)` for `^([a-z]|_)*:([a-z]|_)*$` (with the same
`$`-before-final-newline allowance). -/
def matchesLowerColon (k : List Char) : Bool := lcAux (stripFinalNl k)

/-- The character class of `problemchars`. -/
def problemChar (c : Char) : Bool :=
  c == '=' || c == '+' || c == '/' || c == '&' || c == '<' || c == '>' ||
  c == ';' || c == '\'' || c == '"' || c == '?' || c == '%' || c == '#' ||
  c == '$' || c == '@' || c == ',' || c == '.' || c == ' ' || c == '\t' ||
  c == '\r' || c == '\n'

/-- `problemchars.search(k)`: some character of `k` is a problem character. -/
def hasProblemChar (k : List Char) : Bool := k.any problemChar

/-- `remove_problem_chars` from audit.py: `problemchars.sub('_', k)`. -/
def remove_problem_chars (k : List Char) : List Char :=
  k.map (fun c => if problemChar c then '_' else c)

/-- `k.split(':')` in Python: colon-separated segments, keeping empties. -/
def splitColon : List Char → List (List Char)
  | [] => [[]]
  | c :: rest =>
    if c = ':' then [] :: splitColon rest
    else
      match splitColon rest with
      | [] => [[c]]
      | s :: ss => (c :: s) :: ss

/-- Attribute maps of XML elements: association lists of string pairs. -/
abbrev AttrL := List (List Char × List Char)

/-- Python exceptions that audit.py can raise while shaping a record. -/
inductive PyErr where
  | keyError
  | valueError
  | indexError
  | typeError
  | attributeError
deriving DecidableEq

/-- The `keys` accumulator of `audit_key_types`: per bucket, a count and the
list of attribute sets seen. -/
structure KeyBuckets where
  lower : Nat × List AttrL
  lower_colon : Nat × List AttrL
  problemchars : Nat × List AttrL
  other : Nat × List AttrL
deriving DecidableEq

/-- An XML element: tag name, attributes, children. -/
inductive Element where
  | mk : List Char → AttrL → List Element → Element

def Element.tag : Element → List Char
  | .mk t _ _ => t

def Element.attrib : Element → AttrL
  | .mk _ a _ => a

def Element.children : Element → List Element
  | .mk _ _ cs => cs

mutual

/-- `element.iter()`: the element itself followed by all descendants,
depth-first in document order. -/
def iterAll : Element → List Element
  | .mk t a cs => .mk t a cs :: iterAllL cs

def iterAllL : List Element → List Element
  | [] => []
  | e :: es => iterAll e ++ iterAllL es

end

/-- `key_type`'s result: the updated accumulator, or an uncaught exception. -/
inductive KRes where
  | err : PyErr → KRes
  | ok : KeyBuckets → KRes
deriving DecidableEq

/-- `key_type` from audit.py: classify the `k` attribute of a `tag` element
into the first matching bucket, recording the count and the attribute set. -/
def key_type (element : Element) (keys : KeyBuckets) : KRes :=
  if element.tag = strL "tag" then
    match alookup (strL "k") element.attrib with
    | none => .err .keyError
    | some k =>
      if matchesLower k then
        .ok ⟨(keys.lower.1 + 1, keys.lower.2 ++ [element.attrib]),
             keys.lower_colon, keys.problemchars, keys.other⟩
      else if matchesLowerColon k then
        .ok ⟨keys.lower, (keys.lower_colon.1 + 1, keys.lower_colon.2 ++ [element.attrib]),
             keys.problemchars, keys.other⟩
      else if hasProblemChar k then
        .ok ⟨keys.lower, keys.lower_colon,
             (keys.problemchars.1 + 1, keys.problemchars.2 ++ [element.attrib]), keys.other⟩
      else
        .ok ⟨keys.lower, keys.lower_colon, keys.problemchars,
             (keys.other.1 + 1, keys.other.2 ++ [element.attrib])⟩
  else .ok keys

/-- JSON-like values stored in a shaped document: flat strings, the
`[lat, lon]` pair (entries `None` until assigned), string-valued
sub-dictionaries (`created`, `address`), and the `node_refs` string list. -/
inductive JVal where
  | str : List Char → JVal
  | pos : Option ℚ → Option ℚ → JVal
  | dict : AttrL → JVal
  | refs : List (List Char) → JVal
deriving DecidableEq

/-- A shaped document: one Python dict from string keys to values. -/
abbrev DictT := List (List Char × JVal)

/-- Python dict assignment `d[k] = v`: replace in place, or append. -/
def setKey (d : DictT) (k : List Char) (v : JVal) : DictT :=
  match d with
  | [] => [(k, v)]
  | (k', v') :: rest => if k = k' then (k, v) :: rest else (k', v') :: setKey rest k v

/-- Dict assignment for the inner string-valued dicts. -/
def setA (m : AttrL) (k v : List Char) : AttrL :=
  match m with
  | [] => [(k, v)]
  | (k', v') :: rest => if k = k' then (k, v) :: rest else (k', v') :: setA rest k v

/-- Python dict lookup `d.get(k)`. -/
def dlookup (k : List Char) : DictT → Option JVal
  | [] => none
  | (k', v) :: rest => if k = k' then some v else dlookup k rest

/-- Python truthiness of the values a shaped document can hold: empty strings,
dicts and lists are falsy; a `pos` pair is a two-element list, always truthy. -/
def truthy : JVal → Bool
  | .str s => !s.isEmpty
  | .pos _ _ => true
  | .dict m => !m.isEmpty
  | .refs l => !l.isEmpty

/-- Truthiness of `node.get(k)`: `None` (absent) is falsy. -/
def truthyOpt : Option JVal → Bool
  | none => false
  | some v => truthy v

/-- `if not node.get(k): node[k] = init` — set a fresh value if falsy. -/
def ensureKey (d : DictT) (k : List Char) (init : JVal) : DictT :=
  if truthyOpt (dlookup k d) then d else setKey d k init

def allDigits (l : List Char) : Bool := l.all (fun c => '0' ≤ c && c ≤ '9')

def digitsToNat (l : List Char) : Nat :=
  l.foldl (fun a c => 10 * a + (c.toNat - 48)) 0

/-- Python `float(v)` on the decimal numerals occurring in OSM coordinates:
optional sign, integer digits, optional fraction; `none` models the
`ValueError` raised on anything else (exponents etc. are out of scope, and
the value is read as the exact rational the numeral denotes). -/
def parseFloat (s : List Char) : Option ℚ :=
  let signed : Bool × List Char :=
    match s with
    | '-' :: r => (true, r)
    | '+' :: r => (false, r)
    | r => (false, r)
  let t := signed.2
  let ip := t.takeWhile (fun c => c ≠ '.')
  let num? : Option (Nat × Nat) :=
    match t.drop ip.length with
    | [] => if allDigits ip && !ip.isEmpty then some (digitsToNat ip, 1) else none
    | '.' :: fp =>
      if allDigits ip && allDigits fp && (!ip.isEmpty || !fp.isEmpty) then
        some (digitsToNat ip * 10 ^ fp.length + digitsToNat fp, 10 ^ fp.length)
      else none
    | _ => none
  num?.map (fun p =>
    mkRat (if signed.1 then -(Int.ofNat p.1) else Int.ofNat p.1) p.2)

/-- The `CREATED` list from audit.py. -/
def CREATED : List (List Char) :=
  [strL "version", strL "changeset", strL "timestamp", strL "user", strL "uid"]

/-- Result of one shaping step: the updated document or an exception. -/
inductive DRes where
  | err : PyErr → DRes
  | ok : DictT → DRes
deriving DecidableEq

/-- Process one top-level attribute of a `node`/`way` element (the first loop
of `clean_and_shape`): creation metadata into `created`, coordinates into
`pos` (running `float` on the value), everything else flat. -/
def shapeAttr (d : DictT) (kv : List Char × List Char) : DRes :=
  if listMem kv.1 CREATED then
    let d1 := ensureKey d (strL "created") (.dict [])
    match dlookup (strL "created") d1 with
    | some (.dict m) => .ok (setKey d1 (strL "created") (.dict (setA m kv.1 kv.2)))
    | _ => .err .typeError
  else if kv.1 = strL "lat" ∨ kv.1 = strL "lon" then
    let d1 := ensureKey d (strL "pos") (.pos none none)
    match parseFloat kv.2 with
    | none => .err .valueError
    | some q =>
      match dlookup (strL "pos") d1 with
      | some (.pos a b) =>
        if kv.1 = strL "lat" then .ok (setKey d1 (strL "pos") (.pos (some q) b))
        else .ok (setKey d1 (strL "pos") (.pos a (some q)))
      | _ => .err .typeError
  else .ok (setKey d kv.1 (.str kv.2))

def shapeAttrs (d : DictT) : AttrL → DRes
  | [] => .ok d
  | kv :: rest =>
    match shapeAttr d kv with
    | .err e => .err e
    | .ok d1 => shapeAttrs d1 rest

/-- `node['address'][addr_fields[1]] = v`, guarded by `len(addr_fields) <= 2`
(Python evaluates the index before the item assignment, so a one-segment key
raises `IndexError` whatever `node['address']` holds). -/
def shapeAddrStore (d : DictT) (addr_fields : List (List Char)) (v : List Char) : DRes :=
  if addr_fields.length ≤ 2 then
    let d1 := ensureKey d (strL "address") (.dict [])
    match addr_fields[1]? with
    | none => .err .indexError
    | some fld =>
      match dlookup (strL "address") d1 with
      | some (.dict m) => .ok (setKey d1 (strL "address") (.dict (setA m fld v)))
      | _ => .err .typeError
  else .ok d

/-- Process one subelement in the `element.iter()` loop of `clean_and_shape`:
`tag` children feed `address` or flat fields, `nd` children feed `node_refs`,
everything else is ignored. -/
def shapeSub (d : DictT) (s : Element) : DRes :=
  if s.tag = strL "tag" then
    match alookup (strL "k") s.attrib with
    | none => .err .keyError
    | some k0 =>
      match alookup (strL "v") s.attrib with
      | none => .err .keyError
      | some v0 =>
        let k := remove_problem_chars k0
        if startsWith (strL "addr") k then
          let addr_fields := splitColon k
          if addr_fields = [strL "addr", strL "street"] then
            match update_street_name v0 with
            | none => .err .attributeError
            | some v1 => shapeAddrStore d addr_fields v1
          else if addr_fields = [strL "addr", strL "postcode"] then
            shapeAddrStore d addr_fields (update_zip_code v0)
          else shapeAddrStore d addr_fields v0
        else .ok (setKey d k (.str v0))
  else if s.tag = strL "nd" then
    let d1 := ensureKey d (strL "node_refs") (.refs [])
    match dlookup (strL "node_refs") d1 with
    | some (.refs l) =>
      match alookup (strL "ref") s.attrib with
      | none => .err .keyError
      | some r => .ok (setKey d1 (strL "node_refs") (.refs (l ++ [r])))
    | _ => .err .attributeError
  else .ok d

def shapeSubs (d : DictT) : List Element → DRes
  | [] => .ok d
  | s :: rest =>
    match shapeSub d s with
    | .err e => .err e
    | .ok d1 => shapeSubs d1 rest

/-- `clean_and_shape`'s overall result: a document, `None` for elements that
are not `node`/`way`, or an uncaught exception aborting the run. -/
inductive ShapeResult where
  | err : PyErr → ShapeResult
  | skip : ShapeResult
  | doc : DictT → ShapeResult
deriving DecidableEq

/-- `clean_and_shape` from audit.py. -/
def clean_and_shape (e : Element) : ShapeResult :=
  if e.tag = strL "node" ∨ e.tag = strL "way" then
    match shapeAttrs (setKey [] (strL "type") (.str e.tag)) e.attrib with
    | .err pe => .err pe
    | .ok d1 =>
      match shapeSubs d1 (iterAll e) with
      | .err pe => .err pe
      | .ok d2 => .doc d2
  else .skip

/-- The output file name computed by `export_to_json`:
`"{0}.json".format(file_in.split('.')[0])`, i.e. everything before the first
dot, with `.json` appended. -/
def export_file_out (file_in : List Char) : List Char :=
  file_in.takeWhile (fun c => c ≠ '.') ++ strL ".json"

/-- Modelled from the claim C8 wording (not from the code): replace the final
extension, keeping everything before the last dot. -/
def specReplaceLastExt (s : List Char) : List Char :=
  ((s.reverse.dropWhile (fun c => c ≠ '.')).reverse).dropLast ++ strL ".json"

/-- The six full words that occur as values of `mapping` (used in the
idempotence proof). -/
def fullWords : List (List Char) :=
  [strL "Street", strL "Avenue", strL "Boulevard", strL "Drive", strL "Road",
   strL "Pike"]

/-- The document key written by `shapeAttr` for an attribute named `k`
(used to state which keys attribute processing can touch). -/
def writeKeyAttr (k : List Char) : List Char :=
  if listMem k CREATED then strL "created"
  else if k = strL "lat" ∨ k = strL "lon" then strL "pos"
  else k

/-! ### Basic lemmas about the string helpers -/

theorem startsWith_iff {p s : List Char} :
    startsWith p s = true ↔ ∃ t, s = p ++ t := by
  induction p generalizing s with
  | nil => simp [startsWith]
  | cons a ps ih =>
    cases s with
    | nil =>
      simp only [startsWith, List.cons_append]
      constructor
      · intro h; cases h
      · rintro ⟨t, ht⟩; cases ht
    | cons c cs =>
      simp only [startsWith, Bool.and_eq_true, beq_iff_eq, List.cons_append]
      constructor
      · rintro ⟨rfl, h⟩
        obtain ⟨t, rfl⟩ := ih.mp h
        exact ⟨t, rfl⟩
      · rintro ⟨t, ht⟩
        injection ht with h1 h2
        exact ⟨h1.symm, ih.mpr ⟨t, h2⟩⟩

theorem listMem_iff {x : List Char} {l : List (List Char)} :
    listMem x l = true ↔ x ∈ l := by
  induction l with
  | nil => simp [listMem]
  | cons y rest ih =>
    by_cases hxy : x = y
    · simp [listMem, hxy]
    · simp [listMem, hxy, ih]

theorem alookup_mem {x v : List Char} {l : List (List Char × List Char)}
    (h : alookup x l = some v) : (x, v) ∈ l := by
  induction l with
  | nil => simp [alookup] at h
  | cons p rest ih =>
    obtain ⟨k, w⟩ := p
    by_cases hxk : x = k
    · subst hxk
      have h2 : some w = some v := by simpa [alookup] using h
      injection h2 with h3
      subst h3
      exact List.mem_cons_self _ _
    · simp only [alookup, if_neg hxk] at h
      exact List.mem_cons_of_mem _ (ih h)

theorem takeWhile_append_all {p : Char → Bool} {l₁ : List Char} (l₂ : List Char)
    (h : ∀ c ∈ l₁, p c = true) :
    (l₁ ++ l₂).takeWhile p = l₁ ++ l₂.takeWhile p := by
  induction l₁ with
  | nil => simp
  | cons a t ih =>
    have ha : p a = true := h a (List.mem_cons_self a t)
    simp only [List.cons_append, List.takeWhile_cons, ha, if_true]
    rw [ih (fun c hc => h c (List.mem_cons_of_mem a hc))]

theorem dropWhile_append_cases (p : Char → Bool) (l₁ l₂ : List Char) :
    (l₁ ++ l₂).dropWhile p =
      if (l₁.dropWhile p).isEmpty then l₂.dropWhile p else l₁.dropWhile p ++ l₂ := by
  induction l₁ with
  | nil => simp
  | cons a t ih =>
    by_cases hpa : p a = true
    · simpa [List.dropWhile_cons, hpa] using ih
    · simp [List.dropWhile_cons, hpa, List.isEmpty]

theorem takeBefore_decomp {s pat : List Char} (hocc : ∃ u t, s = u ++ pat ++ t) :
    ∃ t, s = takeBefore s pat ++ pat ++ t ∧
      ∀ i, i < (takeBefore s pat).length → startsWith pat (s.drop i) = false := by
  induction s with
  | nil =>
    obtain ⟨u, t, ht⟩ := hocc
    have hu : u = [] := by
      cases u with
      | nil => rfl
      | cons a b => simp at ht
    have hp : pat = [] := by
      subst hu
      cases pat with
      | nil => rfl
      | cons a b => simp at ht
    refine ⟨[], ?_, ?_⟩
    · simp [takeBefore, hp]
    · intro i hi; simp [takeBefore] at hi
  | cons c rest ih =>
    by_cases hs : startsWith pat (c :: rest) = true
    · obtain ⟨t, ht⟩ := startsWith_iff.mp hs
      refine ⟨t, ?_, ?_⟩
      · simp only [takeBefore, if_pos hs, List.nil_append]
        exact ht
      · intro i hi
        simp [takeBefore, if_pos hs] at hi
    · obtain ⟨u, t, ht⟩ := hocc
      have hu : ∃ c' u2, u = c' :: u2 := by
        cases u with
        | nil =>
          exfalso
          exact hs (startsWith_iff.mpr ⟨t, by simpa using ht⟩)
        | cons c' u2 => exact ⟨c', u2, rfl⟩
      obtain ⟨c', u2, rfl⟩ := hu
      have hcc : c' = c := by
        simpa using congrArg (List.head? ·) ht.symm
      subst hcc
      have hrest : rest = u2 ++ pat ++ t := by
        simpa using ht
      obtain ⟨t', ht', hmin⟩ := ih ⟨u2, t, hrest⟩
      have hsf : startsWith pat (c' :: rest) = false := by
        cases hv : startsWith pat (c' :: rest) with
        | false => rfl
        | true => exact absurd hv hs
      refine ⟨t', ?_, ?_⟩
      · simp only [takeBefore, if_neg hs, List.cons_append]
        exact congrArg (c' :: ·) ht' 
      · intro i hi
        cases i with
        | zero => simpa using hsf
        | succ j =>
          simp only [takeBefore, if_neg hs, List.length_cons] at hi
          simpa using hmin j (Nat.lt_of_succ_lt_succ hi)

theorem containsPA_cons {c : Char} {rest : List Char} (h : containsPA rest = true) :
    containsPA (c :: rest) = true := by
  simp [containsPA, h]

theorem splitLastPA_no_pa {s : List Char} (h : containsPA s = false) :
    splitLastPA s = s := by
  cases s with
  | nil => rfl
  | cons c rest =>
    simp only [containsPA, Bool.or_eq_false_iff] at h
    simp [splitLastPA, h.1, h.2]

theorem splitLastPA_spec {s : List Char} (h : containsPA s = true) :
    ∃ a, s = a ++ strL "PA " ++ splitLastPA s ∧ containsPA (splitLastPA s) = false := by
  induction s with
  | nil => simp [containsPA] at h
  | cons c rest ih =>
    by_cases hr : containsPA rest = true
    · obtain ⟨a, ha, hw⟩ := ih hr
      have hst : splitLastPA (c :: rest) = splitLastPA rest := by
        simp [splitLastPA, hr]
      refine ⟨c :: a, ?_, by rw [hst]; exact hw⟩
      rw [hst, List.cons_append, List.cons_append]
      exact congrArg (c :: ·) ha
    · have hrf : containsPA rest = false := by
        cases hv : containsPA rest with
        | false => rfl
        | true => exact absurd hv hr
      have hs : startsWith (strL "PA ") (c :: rest) = true := by
        simp only [containsPA, Bool.or_eq_true] at h
        rcases h with h | h
        · exact h
        · exact absurd h hr
      obtain ⟨t, ht⟩ := startsWith_iff.mp hs
      have hrt : rest = 'A' :: ' ' :: t := by
        have := congrArg (List.tail ·) ht
        simpa [strL] using this
      have hstep : splitLastPA (c :: rest) = t := by
        simp only [splitLastPA, hrf, if_false, Bool.false_eq_true, hs, if_true]
        rw [hrt]
        rfl
      have hct : containsPA t = false := by
        cases hv : containsPA t with
        | false => rfl
        | true =>
          have : containsPA rest = true := by
            rw [hrt]
            exact containsPA_cons (containsPA_cons hv)
          exact absurd this hr
      refine ⟨[], ?_, by rw [hstep]; exact hct⟩
      rw [hstep, List.nil_append]
      exact ht

theorem any_hyphen_iff {z : List Char} :
    z.any (fun c => c == '-') = true ↔ '-' ∈ z := by
  rw [List.any_eq_true]
  constructor
  · rintro ⟨x, hx, hb⟩
    rw [beq_iff_eq] at hb
    exact hb ▸ hx
  · intro h
    exact ⟨'-', h, by simp⟩

theorem hyphen_decomp {z : List Char} (h : '-' ∈ z) :
    ∃ b, z = z.takeWhile (fun c => c ≠ '-') ++ '-' :: b := by
  induction z with
  | nil => simp at h
  | cons c rest ih =>
    by_cases hc : c = '-'
    · subst hc
      exact ⟨rest, by simp [List.takeWhile_cons]⟩
    · have hmem : '-' ∈ rest := by
        rcases List.mem_cons.mp h with h1 | h2
        · exact absurd h1.symm hc
        · exact h2
      obtain ⟨b, hb⟩ := ih hmem
      refine ⟨b, ?_⟩
      have hdc : (decide (c ≠ '-')) = true := by simp [hc]
      simp only [List.takeWhile_cons, hdc, if_true, List.cons_append]
      exact congrArg (c :: ·) hb

theorem street_type_occurs {name st : List Char} (h : street_type_search name = some st) :
    ∃ u t, name = u ++ st ++ t := by
  have h2 : ((stripNlRev name.reverse).takeWhile (fun c => !pyIsSpace c)).reverse.dropWhile
      (fun c => !isWordChar c) = st := by
    simp only [street_type_search] at h
    split at h
    · cases h
    · injection h
  obtain ⟨u1, hu1⟩ : ∃ u1, u1 ++ st =
      ((stripNlRev name.reverse).takeWhile (fun c => !pyIsSpace c)).reverse :=
    ⟨_, by rw [← h2]; exact List.takeWhile_append_dropWhile _ _⟩
  obtain ⟨v1, hv1⟩ : ∃ v1, (stripNlRev name.reverse).takeWhile (fun c => !pyIsSpace c) ++ v1 =
      stripNlRev name.reverse :=
    ⟨_, List.takeWhile_append_dropWhile _ _⟩
  have h3 : name = (stripNlRev name.reverse).reverse ∨
      name = (stripNlRev name.reverse).reverse ++ ['\n'] := by
    cases hnr : name.reverse with
    | nil =>
      left
      have hn : name = [] := by simpa using congrArg List.reverse hnr
      simp [hn, stripNlRev]
    | cons c t =>
      by_cases hc : c = '\n'
      · right
        subst hc
        have hn : name = t.reverse ++ ['\n'] := by
          simpa using congrArg List.reverse hnr
        simpa [stripNlRev] using hn
      · left
        have hn : name = (c :: t).reverse := by
          simpa using (congrArg List.reverse hnr)
        simpa [stripNlRev, hc] using hn
  rcases h3 with h3 | h3
  · refine ⟨v1.reverse ++ u1, [], ?_⟩
    rw [h3, ← hv1, List.reverse_append, ← hu1]
    simp
  · refine ⟨v1.reverse ++ u1, ['\n'], ?_⟩
    rw [h3, ← hv1, List.reverse_append, ← hu1]
    simp

/-! ### Claim theorems -/

/-- Claim C1, counterexample: the claim says a string starting with `"PA "`
maps to the remainder after that prefix, but on `"PA PA 17540"` the code
returns the segment after the last occurrence of `"PA "`, not the remainder
`"PA 17540"` after the prefix. -/
theorem C1_counterexample :
    update_zip_code (strL "PA PA 17540") = strL "17540" ∧
    (strL "PA PA 17540").drop (strL "PA ").length = strL "PA 17540" ∧
    strL "17540" ≠ strL "PA 17540" := by decide

/-- Claim C1 (amended): `update_zip_code` applies exactly one of three
corrections in fixed priority order: `"17250"` maps to `"17520"`; else a
string containing a hyphen maps to its substring before the first hyphen;
else a string starting with `"PA "` maps to the substring after the last
occurrence of `"PA "` (the returned suffix contains no further `"PA "`);
else the input is returned unchanged, with no re-validation. -/
theorem C1_amended (z : List Char) :
    (z = strL "17250" → update_zip_code z = strL "17520") ∧
    (z ≠ strL "17250" → '-' ∈ z →
      (∃ b, z = update_zip_code z ++ '-' :: b) ∧ '-' ∉ update_zip_code z) ∧
    (z ≠ strL "17250" → '-' ∉ z → startsWith (strL "PA ") z = true →
      ∃ a, z = a ++ strL "PA " ++ update_zip_code z ∧
        containsPA (update_zip_code z) = false) ∧
    (z ≠ strL "17250" → '-' ∉ z → startsWith (strL "PA ") z = false →
      update_zip_code z = z) := by
  refine ⟨?_, ?_, ?_, ?_⟩
  · rintro rfl; decide
  · intro h1 h2
    have hz : update_zip_code z = z.takeWhile (fun c => c ≠ '-') := by
      unfold update_zip_code
      rw [if_neg h1, if_pos (any_hyphen_iff.mpr h2)]
    obtain ⟨b, hb⟩ := hyphen_decomp h2
    refine ⟨⟨b, by rw [hz]; exact hb⟩, ?_⟩
    rw [hz]
    intro hmem
    have := List.mem_takeWhile_imp hmem
    simp at this
  · intro h1 h2 h3
    have hany : z.any (fun c => c == '-') = false := by
      cases hq : z.any (fun c => c == '-') with
      | false => rfl
      | true => exact absurd (any_hyphen_iff.mp hq) h2
    have hz : update_zip_code z = splitLastPA z := by
      unfold update_zip_code
      rw [if_neg h1, if_neg (by simp [hany]), if_pos h3]
    have hcont : containsPA z = true := by
      obtain ⟨t, ht⟩ := startsWith_iff.mp h3
      rw [ht]
      simp [strL, containsPA, startsWith]
    rw [hz]
    exact splitLastPA_spec hcont
  · intro h1 h2 h3
    have hany : z.any (fun c => c == '-') = false := by
      cases hq : z.any (fun c => c == '-') with
      | false => rfl
      | true => exact absurd (any_hyphen_iff.mp hq) h2
    unfold update_zip_code
    rw [if_neg h1, if_neg (by simp [hany]), if_neg (by simp [h3])]

/-- Witness for C1 at the concrete input `"PA 17540"`. -/
theorem C1_witness :
    ∃ a, strL "PA 17540" = a ++ strL "PA " ++ update_zip_code (strL "PA 17540") ∧
      containsPA (update_zip_code (strL "PA 17540")) = false :=
  (C1_amended (strL "PA 17540")).2.2.1 (by decide) (by decide) (by decide)

/-- Claim C8, counterexample: the exporter truncates at the first dot, so
`"a.b.osm"` yields `"a.json"`, not the claimed replace-the-final-extension
result `"a.b.json"` — the base name is not preserved. -/
theorem C8_counterexample :
    export_file_out (strL "a.b.osm") = strL "a.json" ∧
    specReplaceLastExt (strL "a.b.osm") = strL "a.b.json" ∧
    strL "a.json" ≠ strL "a.b.json" := by decide

/-- Claim C8 (amended): the output name is the input truncated at its first
dot, with `.json` appended; this equals replacing the final extension only
when the part before the extension contains no dot (and a dot-free input
maps to itself plus `.json`). -/
theorem C8_amended (base ext : List Char) (hb : '.' ∉ base) :
    export_file_out (base ++ '.' :: ext) = base ++ strL ".json" ∧
    export_file_out base = base ++ strL ".json" := by
  have hall : ∀ c ∈ base, (fun c => decide (c ≠ '.')) c = true := by
    intro c hc
    simp only [decide_eq_true_eq]
    exact fun hcd => hb (hcd ▸ hc)
  constructor
  · unfold export_file_out
    rw [takeWhile_append_all ('.' :: ext) hall]
    simp [List.takeWhile_cons]
  · unfold export_file_out
    have h0 := takeWhile_append_all (p := fun c => decide (c ≠ '.')) [] hall
    simp only [List.append_nil, List.takeWhile_nil] at h0
    rw [h0]

/-- Witness for C8 at the concrete input `"lancaster.osm"`. -/
theorem C8_witness :
    export_file_out (strL "lancaster" ++ '.' :: strL "osm") =
      strL "lancaster" ++ strL ".json" :=
  (C8_amended (strL "lancaster") (strL "osm") (by decide)).1

/-- Claim C2, counterexample: on `"Main (St"` the last whitespace-delimited
token is `"(St"`, which is unlisted and unmapped, so the claim predicts the
name is returned unchanged; but the suffix regex skips the leading `(` and
extracts `"St"`, so the code rewrites the name to `"Main (Street"`. -/
theorem C2_counterexample :
    update_street_name (strL "Main (St") = some (strL "Main (Street") ∧
    specC2_update (strL "Main (St") = strL "Main (St" ∧
    some (strL "Main (Street") ≠ some (strL "Main (St") := by decide

/-- Claim C2 (amended): the extracted suffix is the match of `\b\S+\.?$` —
the trailing non-whitespace run, shortened to its first word character, with
a final newline ignored — and the function fails (`AttributeError`) when
there is no match, rather than returning the name. When a suffix `st` is
extracted: a whitelisted or unmapped suffix leaves the name unchanged;
otherwise the name is replaced by the portion before the first literal
occurrence of `st` (as witnessed by the decomposition below) concatenated
with the mapping's full word. -/
theorem C2_amended (name : List Char) :
    (street_type_search name = none → update_street_name name = none) ∧
    ∀ st, street_type_search name = some st →
      (listMem st expected_street_type = true → update_street_name name = some name) ∧
      (alookup st mapping = none → update_street_name name = some name) ∧
      ∀ full, listMem st expected_street_type = false → alookup st mapping = some full →
        (∃ t, name = takeBefore name st ++ st ++ t ∧
          ∀ i, i < (takeBefore name st).length → startsWith st (name.drop i) = false) ∧
        update_street_name name = some (takeBefore name st ++ full) := by
  refine ⟨?_, ?_⟩
  · intro h
    simp [update_street_name, h]
  · intro st hst
    refine ⟨?_, ?_, ?_⟩
    · intro hmem
      simp [update_street_name, hst, hmem]
    · intro hnone
      simp [update_street_name, hst, hnone]
    · intro full hmem hlook
      refine ⟨takeBefore_decomp (street_type_occurs hst), ?_⟩
      simp [update_street_name, hst, hmem, hlook]

/-- Witness for C2 at the concrete input `"Main St"`. -/
theorem C2_witness :
    update_street_name (strL "Main St") = some (strL "Main Street") := by
  have h := ((C2_amended (strL "Main St")).2 (strL "St") (by decide)).2.2
      (strL "Street") (by decide) (by decide)
  rw [h.2]
  decide

/-- Claim C4: `key_type` classifies the `k` attribute of every `tag` element
into exactly one of the four buckets, testing the three patterns in fixed
priority order (`lower`, then `lower_colon`, then `problemchars`, with
`other` as the fallback), and records the element's attributes there. -/
theorem C4_classification (e : Element) (b : KeyBuckets) (k : List Char)
    (htag : e.tag = strL "tag") (hk : alookup (strL "k") e.attrib = some k) :
    (matchesLower k = true →
      key_type e b = .ok ⟨(b.lower.1 + 1, b.lower.2 ++ [e.attrib]),
        b.lower_colon, b.problemchars, b.other⟩) ∧
    (matchesLower k = false → matchesLowerColon k = true →
      key_type e b = .ok ⟨b.lower, (b.lower_colon.1 + 1, b.lower_colon.2 ++ [e.attrib]),
        b.problemchars, b.other⟩) ∧
    (matchesLower k = false → matchesLowerColon k = false → hasProblemChar k = true →
      key_type e b = .ok ⟨b.lower, b.lower_colon,
        (b.problemchars.1 + 1, b.problemchars.2 ++ [e.attrib]), b.other⟩) ∧
    (matchesLower k = false → matchesLowerColon k = false → hasProblemChar k = false →
      key_type e b = .ok ⟨b.lower, b.lower_colon, b.problemchars,
        (b.other.1 + 1, b.other.2 ++ [e.attrib])⟩) := by
  refine ⟨?_, ?_, ?_, ?_⟩
  · intro h1
    simp [key_type, htag, hk, h1]
  · intro h1 h2
    simp [key_type, htag, hk, h1, h2]
  · intro h1 h2 h3
    simp [key_type, htag, hk, h1, h2, h3]
  · intro h1 h2 h3
    simp [key_type, htag, hk, h1, h2, h3]

/-- Witness for C4 at a concrete `tag` element with key `addr:street`. -/
theorem C4_witness :
    key_type (.mk (strL "tag") [(strL "k", strL "addr:street")] [])
      ⟨(0, []), (0, []), (0, []), (0, [])⟩ =
    .ok ⟨(0, []), (1, [[(strL "k", strL "addr:street")]]), (0, []), (0, [])⟩ := by
  have h := (C4_classification (.mk (strL "tag") [(strL "k", strL "addr:street")] [])
      ⟨(0, []), (0, []), (0, []), (0, [])⟩ (strL "addr:street")
      (by decide) (by decide)).2.1 (by decide) (by decide)
  exact h

/-! ### Idempotence of the normalizers (claim C3) -/

theorem fullWords_facts : ∀ f ∈ fullWords,
    f ≠ [] ∧ (∀ c ∈ f, pyIsSpace c = false) ∧
    f.reverse.head? ≠ some '\n' ∧
    f.dropWhile (fun c => !isWordChar c) = f ∧
    listMem f expected_street_type = true := by decide

theorem mapping_vals_full : ∀ p ∈ mapping, p.2 ∈ fullWords := by decide

theorem no_proper_suffix : ∀ e ∈ expected_street_type ++ mapping.map Prod.fst,
    ∀ f ∈ fullWords, e.length ≤ f.length ∨ e.drop (e.length - f.length) ≠ f := by
  decide

/-- A street name that ends in one of the six full replacement words is left
unchanged by `update_street_name`: the extracted suffix is either the full
word itself (whitelisted) or a longer word ending in it (neither whitelisted
nor a mapping key). -/
theorem update_street_name_append_full {A F : List Char} (hF : F ∈ fullWords) :
    update_street_name (A ++ F) = some (A ++ F) := by
  obtain ⟨hne, hns, hnl, hdw, hexp⟩ := fullWords_facts F hF
  obtain ⟨y, ys, hyF⟩ : ∃ y ys, F.reverse = y :: ys := by
    cases hq : F.reverse with
    | nil => exact absurd (by simpa using congrArg List.reverse hq) hne
    | cons y ys => exact ⟨y, ys, rfl⟩
  have hyn : y ≠ '\n' := by
    intro hy
    apply hnl
    rw [hyF, hy]
    rfl
  have hstrip : stripNlRev (A ++ F).reverse = F.reverse ++ A.reverse := by
    rw [List.reverse_append, hyF, List.cons_append]
    simp [stripNlRev, hyn]
  have htw : (F.reverse ++ A.reverse).takeWhile (fun c => !pyIsSpace c)
      = F.reverse ++ A.reverse.takeWhile (fun c => !pyIsSpace c) := by
    apply takeWhile_append_all
    intro c hc
    simp [hns c (List.mem_reverse.mp hc)]
  have hrt : (F.reverse ++ A.reverse.takeWhile (fun c => !pyIsSpace c)).reverse
      = (A.reverse.takeWhile (fun c => !pyIsSpace c)).reverse ++ F := by
    rw [List.reverse_append, List.reverse_reverse]
  have hst : ((A.reverse.takeWhile (fun c => !pyIsSpace c)).reverse ++ F).dropWhile
        (fun c => !isWordChar c)
      = if ((A.reverse.takeWhile (fun c => !pyIsSpace c)).reverse.dropWhile
            (fun c => !isWordChar c)).isEmpty then F
        else (A.reverse.takeWhile (fun c => !pyIsSpace c)).reverse.dropWhile
            (fun c => !isWordChar c) ++ F := by
    rw [dropWhile_append_cases]
    by_cases hcase : ((A.reverse.takeWhile (fun c => !pyIsSpace c)).reverse.dropWhile
        (fun c => !isWordChar c)).isEmpty
    · rw [if_pos hcase, if_pos hcase, hdw]
    · rw [if_neg hcase, if_neg hcase]
  have hsearch : street_type_search (A ++ F) =
      some (((A.reverse.takeWhile (fun c => !pyIsSpace c)).reverse ++ F).dropWhile
        (fun c => !isWordChar c)) := by
    simp only [street_type_search]
    rw [hstrip, htw, hrt]
    rw [if_neg ?_]
    rw [hst]
    split
    · simp [List.isEmpty_iff, hne]
    · simp [List.isEmpty_iff, hne]
  by_cases hcase : ((A.reverse.takeWhile (fun c => !pyIsSpace c)).reverse.dropWhile
      (fun c => !isWordChar c)).isEmpty
  · have hs2 : street_type_search (A ++ F) = some F := by
      rw [hsearch, hst, if_pos hcase]
    simp [update_street_name, hs2, hexp]
  · have hs2 : street_type_search (A ++ F) =
        some ((A.reverse.takeWhile (fun c => !pyIsSpace c)).reverse.dropWhile
          (fun c => !isWordChar c) ++ F) := by
      rw [hsearch, hst, if_neg hcase]
    have hWne : (A.reverse.takeWhile (fun c => !pyIsSpace c)).reverse.dropWhile
        (fun c => !isWordChar c) ≠ [] := by
      simpa [List.isEmpty_iff] using hcase
    have hcontra : (A.reverse.takeWhile (fun c => !pyIsSpace c)).reverse.dropWhile
        (fun c => !isWordChar c) ++ F ∈
        expected_street_type ++ mapping.map Prod.fst → False := by
      intro hmem
      rcases no_proper_suffix _ hmem F hF with hlen | hdrop
      · rw [List.length_append] at hlen
        have hz : ((A.reverse.takeWhile (fun c => !pyIsSpace c)).reverse.dropWhile
            (fun c => !isWordChar c)).length = 0 := by omega
        exact hWne (List.length_eq_zero.mp hz)
      · apply hdrop
        have hlw : ((A.reverse.takeWhile (fun c => !pyIsSpace c)).reverse.dropWhile
              (fun c => !isWordChar c) ++ F).length - F.length
            = ((A.reverse.takeWhile (fun c => !pyIsSpace c)).reverse.dropWhile
              (fun c => !isWordChar c)).length := by
          rw [List.length_append]
          omega
        rw [hlw]
        exact List.drop_left _ _
    have hnm : listMem ((A.reverse.takeWhile (fun c => !pyIsSpace c)).reverse.dropWhile
        (fun c => !isWordChar c) ++ F) expected_street_type = false := by
      cases hq : listMem ((A.reverse.takeWhile (fun c => !pyIsSpace c)).reverse.dropWhile
          (fun c => !isWordChar c) ++ F) expected_street_type with
      | false => rfl
      | true => exact absurd (List.mem_append_left _ (listMem_iff.mp hq)) (fun h => hcontra h)
    have hlook : alookup ((A.reverse.takeWhile (fun c => !pyIsSpace c)).reverse.dropWhile
        (fun c => !isWordChar c) ++ F) mapping = none := by
      cases hq : alookup ((A.reverse.takeWhile (fun c => !pyIsSpace c)).reverse.dropWhile
          (fun c => !isWordChar c) ++ F) mapping with
      | none => rfl
      | some v =>
        exact absurd (List.mem_append_right _ (List.mem_map_of_mem Prod.fst (alookup_mem hq)))
          (fun h => hcontra h)
    simp [update_street_name, hs2, hnm, hlook]

theorem any_hyphen_false {w : List Char} (h : '-' ∉ w) :
    w.any (fun c => c == '-') = false := by
  cases hq : w.any (fun c => c == '-') with
  | false => rfl
  | true => exact absurd (any_hyphen_iff.mp hq) h

/-- `update_zip_code` fixes any input that triggers none of its three
corrections. -/
theorem zip_unchanged {w : List Char} (h1 : w ≠ strL "17250") (h2 : '-' ∉ w)
    (h3 : startsWith (strL "PA ") w = false) : update_zip_code w = w := by
  unfold update_zip_code
  rw [if_neg h1, if_neg (by simp [any_hyphen_false h2]), if_neg (by simp [h3])]

/-- Claim C3, counterexample: `update_zip_code` is not idempotent.
`update_zip_code("17250-1234")` truncates to `"17250"`, and a second
application turns that into `"17520"`. -/
theorem C3_counterexample :
    update_zip_code (update_zip_code (strL "17250-1234")) ≠
      update_zip_code (strL "17250-1234") := by decide

/-- Claim C3 (amended): `update_street_name` is idempotent whenever it
returns a value; `update_zip_code` is not idempotent in general, but it is
idempotent on every input whose first-pass output is neither the literal
`"17250"` nor a string starting with `"PA "` (the only outputs on which a
second pass can still fire a correction). -/
theorem C3_amended :
    (∀ name r, update_street_name name = some r → update_street_name r = some r) ∧
    (∀ z, update_zip_code z ≠ strL "17250" →
      startsWith (strL "PA ") (update_zip_code z) = false →
      update_zip_code (update_zip_code z) = update_zip_code z) := by
  constructor
  · intro name r h
    cases hs : street_type_search name with
    | none => simp [update_street_name, hs] at h
    | some st =>
      simp only [update_street_name, hs] at h
      by_cases hm : listMem st expected_street_type = true
      · rw [if_pos hm] at h
        injection h with h2
        subst h2
        simp [update_street_name, hs, hm]
      · rw [if_neg hm] at h
        cases hl : alookup st mapping with
        | none =>
          rw [hl] at h
          injection h with h2
          subst h2
          simp [update_street_name, hs, hm, hl]
        | some full =>
          rw [hl] at h
          injection h with h2
          subst h2
          exact update_street_name_append_full (mapping_vals_full _ (alookup_mem hl))
  · intro z h17 hpa
    by_cases h1 : z = strL "17250"
    · subst h1; decide
    · by_cases h2 : '-' ∈ z
      · have hw : update_zip_code z = z.takeWhile (fun c => c ≠ '-') := by
          unfold update_zip_code
          rw [if_neg h1, if_pos (any_hyphen_iff.mpr h2)]
        rw [hw] at h17 hpa ⊢
        apply zip_unchanged h17 ?_ hpa
        intro hmem
        have := List.mem_takeWhile_imp hmem
        simp at this
      · by_cases h3 : startsWith (strL "PA ") z = true
        · have hw : update_zip_code z = splitLastPA z := by
            unfold update_zip_code
            rw [if_neg h1, if_neg (by simp [any_hyphen_false h2]), if_pos h3]
          have hcont : containsPA z = true := by
            obtain ⟨t, ht⟩ := startsWith_iff.mp h3
            rw [ht]
            simp [strL, containsPA, startsWith]
          obtain ⟨a, ha, _⟩ := splitLastPA_spec hcont
          rw [hw] at h17 hpa ⊢
          apply zip_unchanged h17 ?_ hpa
          intro hmem
          apply h2
          rw [ha]
          simp [hmem]
        · have h3f : startsWith (strL "PA ") z = false := by
            cases hq : startsWith (strL "PA ") z with
            | false => rfl
            | true => exact absurd hq h3
          have hw : update_zip_code z = z := zip_unchanged h1 h2 h3f
          rw [hw, hw]

/-- Witness for C3: a successful street normalization is a fixed point, and a
hyphen-truncated zip whose output is ordinary is a fixed point. -/
theorem C3_witness :
    update_street_name (strL "Main Street") = some (strL "Main Street") ∧
    update_zip_code (update_zip_code (strL "17602-1234")) =
      update_zip_code (strL "17602-1234") :=
  ⟨C3_amended.1 (strL "Main St") (strL "Main Street") (by decide),
   C3_amended.2 (strL "17602-1234") (by decide) (by decide)⟩

/-! ### Dictionary and record-shaper lemmas -/

theorem setKey_lookup_self (d : DictT) (k : List Char) (v : JVal) :
    dlookup k (setKey d k v) = some v := by
  induction d with
  | nil => simp [setKey, dlookup]
  | cons p rest ih =>
    obtain ⟨k', v'⟩ := p
    by_cases h : k = k'
    · simp [setKey, h, dlookup]
    · simp [setKey, h, dlookup, ih]

theorem setKey_lookup_ne {K k : List Char} (d : DictT) (v : JVal) (h : K ≠ k) :
    dlookup K (setKey d k v) = dlookup K d := by
  induction d with
  | nil => simp [setKey, dlookup, h]
  | cons p rest ih =>
    obtain ⟨k', v'⟩ := p
    by_cases h2 : k = k'
    · subst h2
      simp [setKey, dlookup, h]
    · by_cases h3 : K = k'
      · simp [setKey, h2, dlookup, h3]
      · simp [setKey, h2, dlookup, h3, ih]

theorem ensureKey_lookup_ne {K k : List Char} (d : DictT) (init : JVal) (h : K ≠ k) :
    dlookup K (ensureKey d k init) = dlookup K d := by
  unfold ensureKey
  split
  · rfl
  · exact setKey_lookup_ne d init h

theorem shapeAttr_preserve {K : List Char} {d d' : DictT} {kv : List Char × List Char}
    (hne : K ≠ writeKeyAttr kv.1) (h : shapeAttr d kv = .ok d') :
    dlookup K d' = dlookup K d := by
  unfold shapeAttr at h
  by_cases h1 : listMem kv.1 CREATED = true
  · rw [if_pos h1] at h
    have hne1 : K ≠ strL "created" := by
      unfold writeKeyAttr at hne
      rw [if_pos h1] at hne
      exact hne
    cases hm : dlookup (strL "created") (ensureKey d (strL "created") (JVal.dict [])) with
    | none => simp [hm] at h
    | some jv =>
      cases jv with
      | dict m =>
        simp only [hm] at h
        injection h with h2
        subst h2
        rw [setKey_lookup_ne _ _ hne1, ensureKey_lookup_ne _ _ hne1]
      | str s2 => simp [hm] at h
      | pos a b => simp [hm] at h
      | refs l2 => simp [hm] at h
  · rw [if_neg h1] at h
    by_cases h2 : kv.1 = strL "lat" ∨ kv.1 = strL "lon"
    · rw [if_pos h2] at h
      have hne2 : K ≠ strL "pos" := by
        unfold writeKeyAttr at hne
        rw [if_neg h1, if_pos h2] at hne
        exact hne
      cases hp : parseFloat kv.2 with
      | none => simp [hp] at h
      | some q =>
        cases hm : dlookup (strL "pos") (ensureKey d (strL "pos") (JVal.pos none none)) with
        | none => simp [hp, hm] at h
        | some jv =>
          cases jv with
          | pos a b =>
            simp only [hp, hm] at h
            by_cases hl : kv.1 = strL "lat"
            · rw [if_pos hl] at h
              injection h with h3
              subst h3
              rw [setKey_lookup_ne _ _ hne2, ensureKey_lookup_ne _ _ hne2]
            · rw [if_neg hl] at h
              injection h with h3
              subst h3
              rw [setKey_lookup_ne _ _ hne2, ensureKey_lookup_ne _ _ hne2]
          | str s2 => simp [hp, hm] at h
          | dict m => simp [hp, hm] at h
          | refs l2 => simp [hp, hm] at h
    · rw [if_neg h2] at h
      injection h with h3
      subst h3
      have hne3 : K ≠ kv.1 := by
        unfold writeKeyAttr at hne
        rw [if_neg h1, if_neg h2] at hne
        exact hne
      exact setKey_lookup_ne _ _ hne3

theorem shapeAttrs_append (d : DictT) (l₁ l₂ : AttrL) :
    shapeAttrs d (l₁ ++ l₂) =
      (match shapeAttrs d l₁ with
       | .err e => .err e
       | .ok d1 => shapeAttrs d1 l₂) := by
  induction l₁ generalizing d with
  | nil => rfl
  | cons kv rest ih =>
    simp only [List.cons_append, shapeAttrs]
    cases shapeAttr d kv with
    | err e => rfl
    | ok d1 => exact ih d1

theorem shapeAttrs_preserve {K : List Char} {l : AttrL}
    (hl : ∀ kv ∈ l, K ≠ writeKeyAttr kv.1) :
    ∀ {d d' : DictT}, shapeAttrs d l = .ok d' → dlookup K d' = dlookup K d := by
  induction l with
  | nil =>
    intro d d' h
    injection h with h2
    subst h2
    rfl
  | cons kv rest ih =>
    intro d d' h
    simp only [shapeAttrs] at h
    cases ha : shapeAttr d kv with
    | err e =>
      rw [ha] at h
      exact DRes.noConfusion h
    | ok d1 =>
      rw [ha] at h
      have hp := shapeAttr_preserve (hl kv (List.mem_cons_self _ _)) ha
      rw [ih (fun x hx => hl x (List.mem_cons_of_mem _ hx)) h, hp]

theorem shapeAddrStore_preserve {K : List Char} {d d' : DictT}
    {af : List (List Char)} {v : List Char} (hK : K ≠ strL "address")
    (h : shapeAddrStore d af v = .ok d') : dlookup K d' = dlookup K d := by
  unfold shapeAddrStore at h
  by_cases hlen : af.length ≤ 2
  · rw [if_pos hlen] at h
    cases hg : af[1]? with
    | none => simp [hg] at h
    | some fld =>
      cases hm : dlookup (strL "address") (ensureKey d (strL "address") (JVal.dict [])) with
      | none => simp [hg, hm] at h
      | some jv =>
        cases jv with
        | dict m =>
          simp only [hg, hm] at h
          injection h with h2
          subst h2
          rw [setKey_lookup_ne _ _ hK, ensureKey_lookup_ne _ _ hK]
        | str s2 => simp [hg, hm] at h
        | pos a b => simp [hg, hm] at h
        | refs l2 => simp [hg, hm] at h
  · rw [if_neg hlen] at h
    injection h with h2
    subst h2
    rfl

theorem shapeSub_preserve {K : List Char} {d d' : DictT} {s : Element}
    (hK1 : K ≠ strL "address") (hK2 : K ≠ strL "node_refs")
    (htag : s.tag = strL "tag" → ∀ k0, alookup (strL "k") s.attrib = some k0 →
      K ≠ remove_problem_chars k0)
    (h : shapeSub d s = .ok d') : dlookup K d' = dlookup K d := by
  unfold shapeSub at h
  by_cases h1 : s.tag = strL "tag"
  · rw [if_pos h1] at h
    cases hk : alookup (strL "k") s.attrib with
    | none =>
      simp [hk] at h
    | some k0 =>
      simp only [hk] at h
      cases hv : alookup (strL "v") s.attrib with
      | none =>
        simp [hv] at h
      | some v0 =>
        simp only [hv] at h
        by_cases h2 : startsWith (strL "addr") (remove_problem_chars k0) = true
        · rw [if_pos h2] at h
          split at h
          · split at h
            · exact DRes.noConfusion h
            · exact shapeAddrStore_preserve hK1 h
          · split at h
            · exact shapeAddrStore_preserve hK1 h
            · exact shapeAddrStore_preserve hK1 h
        · rw [if_neg h2] at h
          injection h with h3
          subst h3
          exact setKey_lookup_ne _ _ (htag h1 k0 hk)
  · rw [if_neg h1] at h
    by_cases h2 : s.tag = strL "nd"
    · rw [if_pos h2] at h
      cases hm : dlookup (strL "node_refs") (ensureKey d (strL "node_refs") (JVal.refs [])) with
      | none => simp [hm] at h
      | some jv =>
        cases jv with
        | refs l2 =>
          simp only [hm] at h
          cases hr : alookup (strL "ref") s.attrib with
          | none => simp [hr] at h
          | some r =>
            simp only [hr] at h
            injection h with h3
            subst h3
            rw [setKey_lookup_ne _ _ hK2, ensureKey_lookup_ne _ _ hK2]
        | str s2 => simp [hm] at h
        | dict m => simp [hm] at h
        | pos a b => simp [hm] at h
    · rw [if_neg h2] at h
      injection h with h3
      subst h3
      rfl

theorem shapeSubs_append (d : DictT) (l₁ l₂ : List Element) :
    shapeSubs d (l₁ ++ l₂) =
      (match shapeSubs d l₁ with
       | .err e => .err e
       | .ok d1 => shapeSubs d1 l₂) := by
  induction l₁ generalizing d with
  | nil => rfl
  | cons s rest ih =>
    simp only [List.cons_append, shapeSubs]
    cases shapeSub d s with
    | err e => rfl
    | ok d1 => exact ih d1

theorem shapeSubs_preserve {K : List Char} {l : List Element}
    (hK1 : K ≠ strL "address") (hK2 : K ≠ strL "node_refs")
    (hl : ∀ s ∈ l, s.tag = strL "tag" → ∀ k0, alookup (strL "k") s.attrib = some k0 →
      K ≠ remove_problem_chars k0) :
    ∀ {d d' : DictT}, shapeSubs d l = .ok d' → dlookup K d' = dlookup K d := by
  induction l with
  | nil =>
    intro d d' h
    injection h with h2
    subst h2
    rfl
  | cons s rest ih =>
    intro d d' h
    simp only [shapeSubs] at h
    cases ha : shapeSub d s with
    | err e =>
      rw [ha] at h
      exact DRes.noConfusion h
    | ok d1 =>
      rw [ha] at h
      have hp := shapeSub_preserve hK1 hK2 (hl s (List.mem_cons_self _ _)) ha
      rw [ih (fun x hx => hl x (List.mem_cons_of_mem _ hx)) h, hp]

theorem shapeSubs_err_absorb {t : Element} {pe : PyErr}
    (hstep : ∀ d : DictT, shapeSub d t = .err pe) :
    ∀ {l : List Element}, t ∈ l → ∀ d : DictT, ∃ pe', shapeSubs d l = .err pe' := by
  intro l
  induction l with
  | nil => intro hmem; cases hmem
  | cons x rest ih =>
    intro hmem d
    rcases List.mem_cons.mp hmem with h1 | h2
    · subst h1
      refine ⟨pe, ?_⟩
      simp only [shapeSubs]
      rw [hstep d]
    · simp only [shapeSubs]
      cases hx : shapeSub d x with
      | err e2 => exact ⟨e2, rfl⟩
      | ok d1 => exact ih h2 d1

/-- Processing the `lat` attribute when `pos` is absent: a fresh
`pos = [None, None]` is stored and its first entry set to the parsed value. -/
theorem shapeAttr_lat {d : DictT} {s : List Char} {q : ℚ}
    (hpos : dlookup (strL "pos") d = none) (hq : parseFloat s = some q) :
    shapeAttr d (strL "lat", s) =
      .ok (setKey (setKey d (strL "pos") (.pos none none)) (strL "pos")
        (.pos (some q) none)) := by
  unfold shapeAttr ensureKey
  simp [hpos, hq, truthyOpt, setKey_lookup_self,
    (show listMem (strL "lat") CREATED = false from by decide)]

/-! ### Claim theorems for the record shaper -/

/-- Claim C5, counterexample: an attribute literally named `type` overwrites
the `type` field set from the element's tag name, so the shaped document's
`type` need not equal the tag name. -/
theorem C5_counterexample :
    clean_and_shape (.mk (strL "node") [(strL "type", strL "bogus")] []) =
      .doc [(strL "type", .str (strL "bogus"))] ∧
    JVal.str (strL "bogus") ≠ JVal.str (strL "node") := by decide

/-- Claim C5 (amended): the `type` field of a shaped document equals the
element's tag name provided no top-level attribute is named `type` and no
descendant `tag`'s sanitized key is `type`; such an attribute or tag
overwrites the field (see the counterexample). -/
theorem C5_amended (e : Element) (d : DictT)
    (ht : e.tag = strL "node" ∨ e.tag = strL "way")
    (hattr : ∀ kv ∈ e.attrib, kv.1 ≠ strL "type")
    (htags : ∀ s ∈ iterAll e, s.tag = strL "tag" →
      ∀ k0, alookup (strL "k") s.attrib = some k0 →
        remove_problem_chars k0 ≠ strL "type")
    (hres : clean_and_shape e = .doc d) :
    dlookup (strL "type") d = some (.str e.tag) := by
  unfold clean_and_shape at hres
  rw [if_pos ht] at hres
  cases ha : shapeAttrs (setKey [] (strL "type") (.str e.tag)) e.attrib with
  | err pe =>
    simp only [ha] at hres
    exact ShapeResult.noConfusion hres
  | ok d1 =>
    simp only [ha] at hres
    cases hb : shapeSubs d1 (iterAll e) with
    | err pe =>
      simp only [hb] at hres
      exact ShapeResult.noConfusion hres
    | ok d2 =>
      simp only [hb] at hres
      injection hres with h2
      subst h2
      have hp1 : dlookup (strL "type") d1 =
          dlookup (strL "type") (setKey [] (strL "type") (.str e.tag)) := by
        apply shapeAttrs_preserve ?_ ha
        intro kv hkv
        unfold writeKeyAttr
        split
        · decide
        · split
          · decide
          · exact fun hx => (hattr kv hkv) hx.symm
      have hp2 : dlookup (strL "type") d2 = dlookup (strL "type") d1 := by
        apply shapeSubs_preserve (by decide) (by decide) ?_ hb
        intro s hs htg k0 hk
        exact fun hx => (htags s hs htg k0 hk) hx.symm
      rw [hp2, hp1, setKey_lookup_self]

/-- Witness for C5 at a concrete one-attribute node element. -/
theorem C5_witness :
    dlookup (strL "type")
      [(strL "type", .str (strL "node")), (strL "id", .str (strL "1"))] =
      some (.str (strL "node")) :=
  C5_amended (.mk (strL "node") [(strL "id", strL "1")] [])
    [(strL "type", .str (strL "node")), (strL "id", .str (strL "1"))]
    (Or.inl rfl) (by decide) (by decide) (by decide)

/-- Claim C6: a descendant `tag` whose sanitized key starts with `addr` and
splits into more than two colon segments changes nothing: its processing
step returns the document unchanged with no error, and dropping the tag
from the subelement stream leaves the whole fold unchanged. -/
theorem C6_deep_addr_dropped (d : DictT) (pre post : List Element) (t : Element)
    (k0 v0 : List Char) (ht : t.tag = strL "tag")
    (hk : alookup (strL "k") t.attrib = some k0)
    (hv : alookup (strL "v") t.attrib = some v0)
    (haddr : startsWith (strL "addr") (remove_problem_chars k0) = true)
    (hdeep : 2 < (splitColon (remove_problem_chars k0)).length) :
    (∀ d0 : DictT, shapeSub d0 t = .ok d0) ∧
    shapeSubs d (pre ++ t :: post) = shapeSubs d (pre ++ post) := by
  have hne1 : splitColon (remove_problem_chars k0) ≠ [strL "addr", strL "street"] := by
    intro heq
    rw [heq] at hdeep
    simp at hdeep
  have hne2 : splitColon (remove_problem_chars k0) ≠ [strL "addr", strL "postcode"] := by
    intro heq
    rw [heq] at hdeep
    simp at hdeep
  have hstep : ∀ d0 : DictT, shapeSub d0 t = .ok d0 := by
    intro d0
    unfold shapeSub
    rw [if_pos ht]
    simp only [hk, hv]
    rw [if_pos haddr, if_neg hne1, if_neg hne2]
    unfold shapeAddrStore
    rw [if_neg (by omega)]
  refine ⟨hstep, ?_⟩
  rw [shapeSubs_append, shapeSubs_append]
  cases shapeSubs d pre with
  | err e => rfl
  | ok d1 =>
    simp only [shapeSubs]
    rw [hstep d1]

/-- Witness for C6 at a concrete `addr:state:extra` tag. -/
theorem C6_witness :
    shapeSub [] (.mk (strL "tag")
      [(strL "k", strL "addr:state:extra"), (strL "v", strL "x")] []) = .ok [] := by
  have h := C6_deep_addr_dropped [] [] []
    (.mk (strL "tag") [(strL "k", strL "addr:state:extra"), (strL "v", strL "x")] [])
    (strL "addr:state:extra") (strL "x")
    (by decide) (by decide) (by decide) (by decide) (by decide)
  exact h.1 []

/-- Claim C7: shaping the specified node element produces exactly the
claimed document: `type` `"node"`, `pos` `[40.0, -76.3]` (latitude first,
as exact rationals `40` and `-763/10`), `created` with `version`/`user`,
`address` with `city`, and `id` as a flat string field. -/
theorem C7_example :
    clean_and_shape (.mk (strL "node")
      [(strL "id", strL "1"), (strL "lat", strL "40.0"), (strL "lon", strL "-76.3"),
       (strL "version", strL "2"), (strL "user", strL "alice")]
      [.mk (strL "tag") [(strL "k", strL "addr:city"), (strL "v", strL "Lancaster")] []]) =
    .doc [(strL "type", .str (strL "node")), (strL "id", .str (strL "1")),
          (strL "pos", .pos (some (mkRat 40 1)) (some (mkRat (-763) 10))),
          (strL "created", .dict [(strL "version", strL "2"), (strL "user", strL "alice")]),
          (strL "address", .dict [(strL "city", strL "Lancaster")])] := by decide

/-- Claim C9: a descendant `tag` whose sanitized key starts with `addr` but
has a single colon segment passes the `len <= 2` guard and indexes the
missing second segment: its processing step raises `IndexError` from any
document state, and the element's shaping never produces a document. -/
theorem C9_single_segment_addr_aborts (e t : Element) (k0 v0 : List Char)
    (he : e.tag = strL "node" ∨ e.tag = strL "way")
    (hmem : t ∈ iterAll e) (ht : t.tag = strL "tag")
    (hk : alookup (strL "k") t.attrib = some k0)
    (hv : alookup (strL "v") t.attrib = some v0)
    (haddr : startsWith (strL "addr") (remove_problem_chars k0) = true)
    (hone : (splitColon (remove_problem_chars k0)).length = 1) :
    (∀ d : DictT, shapeSub d t = .err .indexError) ∧
    ∀ d2, clean_and_shape e ≠ .doc d2 := by
  have hne1 : splitColon (remove_problem_chars k0) ≠ [strL "addr", strL "street"] := by
    intro heq
    rw [heq] at hone
    simp at hone
  have hne2 : splitColon (remove_problem_chars k0) ≠ [strL "addr", strL "postcode"] := by
    intro heq
    rw [heq] at hone
    simp at hone
  have hget : (splitColon (remove_problem_chars k0))[1]? = none :=
    List.getElem?_eq_none (by omega)
  have hstep : ∀ d : DictT, shapeSub d t = .err .indexError := by
    intro d
    unfold shapeSub
    rw [if_pos ht]
    simp only [hk, hv]
    rw [if_pos haddr, if_neg hne1, if_neg hne2]
    unfold shapeAddrStore
    rw [if_pos (by omega), hget]
  refine ⟨hstep, ?_⟩
  intro d2
  unfold clean_and_shape
  rw [if_pos he]
  cases ha : shapeAttrs (setKey [] (strL "type") (.str e.tag)) e.attrib with
  | err pe => simp
  | ok d1 =>
    obtain ⟨pe', hpe⟩ := shapeSubs_err_absorb hstep hmem d1
    simp only [hpe]
    simp

/-- Witness for C9 at a concrete `addressee` tag inside a way element. -/
theorem C9_witness :
    shapeSub [] (.mk (strL "tag")
      [(strL "k", strL "addressee"), (strL "v", strL "x")] []) = .err .indexError := by
  have hmem : (Element.mk (strL "tag") [(strL "k", strL "addressee"), (strL "v", strL "x")] []) ∈
      iterAll (.mk (strL "way") []
        [.mk (strL "tag") [(strL "k", strL "addressee"), (strL "v", strL "x")] []]) := by
    show _ ∈ _ :: _ :: _
    exact List.mem_cons_of_mem _ (List.mem_cons_self _ _)
  have h := C9_single_segment_addr_aborts
    (.mk (strL "way") [] [.mk (strL "tag")
      [(strL "k", strL "addressee"), (strL "v", strL "x")] []])
    (.mk (strL "tag") [(strL "k", strL "addressee"), (strL "v", strL "x")] [])
    (strL "addressee") (strL "x")
    (Or.inr rfl) hmem (by decide) (by decide) (by decide) (by decide) (by decide)
  exact h.1 []

/-- Claim C10: if an accepted element carries `lat` (with a parseable value)
but no `lon` (and nothing else touches the reserved `pos` key), the shaped
document contains `pos` as a two-element pair with the parsed latitude first
and the missing longitude left as `None`. -/
theorem C10_pos_single_coord (e : Element) (d : DictT) (s : List Char) (q : ℚ)
    (he : e.tag = strL "node" ∨ e.tag = strL "way")
    (hnodup : (e.attrib.map Prod.fst).Nodup)
    (hlat : (strL "lat", s) ∈ e.attrib)
    (hq : parseFloat s = some q)
    (hlon : ∀ kv ∈ e.attrib, kv.1 ≠ strL "lon")
    (hposk : ∀ kv ∈ e.attrib, kv.1 ≠ strL "pos")
    (htags : ∀ u ∈ iterAll e, u.tag = strL "tag" →
      ∀ k0, alookup (strL "k") u.attrib = some k0 →
        remove_problem_chars k0 ≠ strL "pos")
    (hres : clean_and_shape e = .doc d) :
    dlookup (strL "pos") d = some (.pos (some q) none) := by
  obtain ⟨pre, post, hsplit⟩ := List.append_of_mem hlat
  have hnod : strL "lat" ∉ pre.map Prod.fst ∧ strL "lat" ∉ post.map Prod.fst := by
    rw [hsplit, List.map_append, List.map_cons] at hnodup
    have h2 := List.nodup_middle.mp hnodup
    have h3 := (List.nodup_cons.mp h2).1
    constructor
    · exact fun hx => h3 (List.mem_append_left _ hx)
    · exact fun hx => h3 (List.mem_append_right _ hx)
  have hside : ∀ part : AttrL, (∀ kv ∈ part, kv ∈ e.attrib) →
      (strL "lat" ∉ part.map Prod.fst) → ∀ kv ∈ part, strL "pos" ≠ writeKeyAttr kv.1 := by
    intro part hsub hnolat kv hkv
    unfold writeKeyAttr
    split
    · decide
    · split
      · rename_i hcre h2
        exfalso
        rcases h2 with h2 | h2
        · exact hnolat (h2 ▸ List.mem_map_of_mem Prod.fst hkv)
        · exact hlon kv (hsub kv hkv) h2
      · exact fun hx => hposk kv (hsub kv hkv) hx.symm
  have hpre : ∀ kv ∈ pre, strL "pos" ≠ writeKeyAttr kv.1 := by
    apply hside
    · intro kv hkv
      rw [hsplit]
      exact List.mem_append_left _ hkv
    · exact hnod.1
  have hpost : ∀ kv ∈ post, strL "pos" ≠ writeKeyAttr kv.1 := by
    apply hside
    · intro kv hkv
      rw [hsplit]
      exact List.mem_append_right _ (List.mem_cons_of_mem _ hkv)
    · exact hnod.2
  unfold clean_and_shape at hres
  rw [if_pos he] at hres
  cases ha : shapeAttrs (setKey [] (strL "type") (.str e.tag)) e.attrib with
  | err pe =>
    simp only [ha] at hres
    exact ShapeResult.noConfusion hres
  | ok d1 =>
    simp only [ha] at hres
    cases hb : shapeSubs d1 (iterAll e) with
    | err pe =>
      simp only [hb] at hres
      exact ShapeResult.noConfusion hres
    | ok d2 =>
      simp only [hb] at hres
      injection hres with h2
      subst h2
      rw [hsplit, shapeAttrs_append] at ha
      cases hpre1 : shapeAttrs (setKey [] (strL "type") (.str e.tag)) pre with
      | err pe =>
        simp only [hpre1] at ha
        exact DRes.noConfusion ha
      | ok dpre =>
        simp only [hpre1] at ha
        have hposd : dlookup (strL "pos") dpre = none := by
          rw [shapeAttrs_preserve hpre hpre1]
          rw [setKey_lookup_ne _ _ (by decide)]
          rfl
        simp only [shapeAttrs] at ha
        rw [shapeAttr_lat hposd hq] at ha
        have hd1 : dlookup (strL "pos") d1 = some (.pos (some q) none) := by
          rw [shapeAttrs_preserve hpost ha, setKey_lookup_self]
        have hsubs : dlookup (strL "pos") d2 = dlookup (strL "pos") d1 := by
          apply shapeSubs_preserve (by decide) (by decide) ?_ hb
          intro u hu htg k0 hk
          exact fun hx => (htags u hu htg k0 hk) hx.symm
        rw [hsubs, hd1]

/-- Witness for C10 at a concrete node carrying only `lat`. -/
theorem C10_witness :
    dlookup (strL "pos")
      [(strL "type", .str (strL "node")), (strL "pos", .pos (some (mkRat 40 1)) none)] =
      some (.pos (some (mkRat 40 1)) none) :=
  C10_pos_single_coord (.mk (strL "node") [(strL "lat", strL "40.0")] [])
    [(strL "type", .str (strL "node")), (strL "pos", .pos (some (mkRat 40 1)) none)]
    (strL "40.0") (mkRat 40 1)
    (Or.inl rfl) (by decide) (by decide) (by decide) (by decide) (by decide)
    (by decide) (by decide)

end Audit
